import Mathlib

/-!
Verification of the differentiable tensor engine core (scalar arithmetic,
axis-wise mean reduction, indexed select) of the dfdx repository.

Tensor buffers are modelled as flat lists of rationals (the code stores
dense `f32` buffers; real-valued algebraic facts are stated over `ℚ`).
Device primitives (`map`, `zip_map_assign`, `add_assign`, `select_axis`,
`select_add`, `fill`) are not part of the sources under review; they are
modelled from the spec and their names.  The operation entry points
(`scalar_add`, `scalar_sub`, `scalar_mul`, `scalar_div`, `mean_axis`,
`select`) mirror the source files `tensor_ops/arith_scalar.rs`,
`tensor_ops/impl_mean_axis.rs`, `tensor_ops/select.rs`.
-/

namespace Dfdx

/-- Modelled from the spec: the missing device primitive `Device::map`
applies a scalar function elementwise to a dense buffer. -/
def Device.map (f : ℚ → ℚ) (l : List ℚ) : List ℚ := l.map f

/-- Modelled from the spec: the missing device primitive
`Device::zip_map_assign(dst, src, f)` overwrites each element of `dst`
with `f dst[i] src[i]`. -/
def Device.zip_map_assign (f : ℚ → ℚ → ℚ) (dst src : List ℚ) : List ℚ :=
  List.zipWith f dst src

/-- Modelled from the spec: the missing device primitive
`Device::add_assign(dst, src)` adds `src` elementwise into `dst`
(the accumulate step of every backward record). -/
def Device.add_assign (dst src : List ℚ) : List ℚ :=
  List.zipWith (fun l r => l + r) dst src

/-- Forward pass of `scalar_add` (arith_scalar.rs line 14):
`map(t.data(), |x| x + val)`. -/
def scalar_add_forward (val : ℚ) (t : List ℚ) : List ℚ :=
  Device.map (fun x => x + val) t

/-- Forward pass of `scalar_sub` (arith_scalar.rs line 36):
`map(t.data(), |x| x - val)`. -/
def scalar_sub_forward (val : ℚ) (t : List ℚ) : List ℚ :=
  Device.map (fun x => x - val) t

/-- Forward pass of `scalar_mul` (arith_scalar.rs line 58):
`map(t.data(), |x| x * val)`. -/
def scalar_mul_forward (val : ℚ) (t : List ℚ) : List ℚ :=
  Device.map (fun x => x * val) t

/-- Forward pass of `scalar_div` (arith_scalar.rs line 80):
`map(t.data(), |x| x / val)`. -/
def scalar_div_forward (val : ℚ) (t : List ℚ) : List ℚ :=
  Device.map (fun x => x / val) t

/-- Backward record of `scalar_add` (arith_scalar.rs lines 17-22):
first `zip_map_assign(t.mut_data(), upstream, |l, r| *l = *r)` overwrites
the captured input buffer with the upstream gradient of the result, then
`add_assign(grads.mut_gradient(&t), t.data())` adds that buffer into the
gradient slot of the input.  Arguments: `tData` is the captured input buffer,
`slot` the current contents of the slot of the input in the Gradient Store,
`upstream` the gradient of the result read from the store. -/
def scalar_add_backward (tData slot upstream : List ℚ) : List ℚ :=
  Device.add_assign slot (Device.zip_map_assign (fun _ r => r) tData upstream)

/-- Backward record of `scalar_sub` (arith_scalar.rs lines 39-44),
identical closure to `scalar_add`. -/
def scalar_sub_backward (tData slot upstream : List ℚ) : List ℚ :=
  Device.add_assign slot (Device.zip_map_assign (fun _ r => r) tData upstream)

/-- Backward record of `scalar_mul` (arith_scalar.rs lines 61-66):
the overwrite closure is `*l = val * r`. -/
def scalar_mul_backward (val : ℚ) (tData slot upstream : List ℚ) : List ℚ :=
  Device.add_assign slot (Device.zip_map_assign (fun _ r => val * r) tData upstream)

/-- Backward record of `scalar_div` (arith_scalar.rs lines 83-88):
the overwrite closure is `*l = r / val`. -/
def scalar_div_backward (val : ℚ) (tData slot upstream : List ℚ) : List ℚ :=
  Device.add_assign slot (Device.zip_map_assign (fun _ r => r / val) tData upstream)

/-- Modelled from the spec: the missing reduction primitive `sum_axis`
produces a tensor with the chosen axis removed, each output element the
sum of the input elements sharing the remaining coordinates.  A tensor
viewed along the reduced axis is a list of groups: the outer list ranges
over the kept coordinates, the inner list over the removed axis. -/
def sum_axis (t : List (List ℚ)) : List ℚ :=
  t.map (fun grp => grp.sum)

/-- Modelled from the spec: the missing `div_scalar` entry point divides
every element of a buffer by a constant (the divide-by-constant rule of
the scalar arithmetic family). -/
def div_scalar (l : List ℚ) (c : ℚ) : List ℚ :=
  Device.map (fun x => x / c) l

/-- Forward pass of `mean_axis` (impl_mean_axis.rs lines 14-19):
`div_scalar(sum_axis::<T, I>(t), SIZE)` where `SIZE` is the size of the
removed axis. -/
def mean_axis (t : List (List ℚ)) (size : ℚ) : List ℚ :=
  div_scalar (sum_axis t) size

/-- Modelled from the spec: the backward of the missing `sum_axis`
primitive broadcasts the upstream gradient back along the removed axis —
each input element of a group receives the upstream gradient of the group. -/
def sum_axis_backward (t : List (List ℚ)) (upstream : List ℚ) : List (List ℚ) :=
  List.zipWith (fun grp g => grp.map (fun _ => g)) t upstream

/-- Gradient transported by the `scalar_div` backward closure
(arith_scalar.rs line 85): `*l = r / val`. -/
def scalar_div_transport (val : ℚ) (upstream : List ℚ) : List ℚ :=
  upstream.map (fun g => g / val)

/-- Composite backward of `mean_axis`: the tape holds the `div_scalar`
record followed (in reverse execution) by the `sum_axis` record, so the
upstream gradient is first divided by the axis size and then broadcast
back along the removed axis. -/
def mean_axis_backward (t : List (List ℚ)) (size : ℚ) (upstream : List ℚ) :
    List (List ℚ) :=
  sum_axis_backward t (scalar_div_transport size upstream)

/-- Modelled from the spec: the missing device primitive
`Cpu::select_axis(data, indices, out)` gathers, for every output
coordinate, the input element addressed by the corresponding index
(select.rs line 21, rank-1 axis case: `out[j] = data[indices[j]]`).
Out-of-range indices are unchecked caller errors in the code; the model
reads a default `0`. -/
def select_axis (data : List ℚ) (indices : List ℕ) : List ℚ :=
  indices.map (fun i => data.getD i 0)

/-- One scatter step: `buf[i] += v`, a no-op when `i` is out of range. -/
def addAt : List ℚ → ℕ → ℚ → List ℚ
  | [], _, _ => []
  | x :: xs, 0, v => (x + v) :: xs
  | x :: xs, n + 1, v => x :: addAt xs n v

/-- Modelled from the spec: the missing device primitive
`Cpu::select_add(buf, indices, grad)` scatter-adds — for every output
coordinate `j` it adds `grad[j]` into `buf[indices[j]]`
(select.rs line 29). -/
def select_add : List ℚ → List ℕ → List ℚ → List ℚ
  | buf, i :: is, g :: gs => select_add (addAt buf i g) is gs
  | buf, _, _ => buf

/-- Backward record of `select` (select.rs lines 26-31): fill the
captured input buffer with zeros (`Cpu::fill`, modelled by its length
`tLen`), scatter-add the upstream gradient of the result into it
(`Cpu::select_add`), then add the buffer into the gradient slot of the input
(`Cpu::add`). -/
def select_backward (tLen : ℕ) (indices : List ℕ) (upstream slot : List ℚ) :
    List ℚ :=
  Device.add_assign slot (select_add (List.replicate tLen 0) indices upstream)

/-- Modelled from the spec: a minimal model of IEEE-754 `f32` values for
the division-by-zero edge case — a value is either finite (modelled
exactly by a rational), an infinity, or NaN. -/
inductive F32 where
  | finite : ℚ → F32
  | inf : F32
  | neginf : F32
  | nan : F32
deriving DecidableEq

/-- Whether an `F32` value is finite. -/
def F32.isFinite : F32 → Bool
  | F32.finite _ => true
  | _ => false

/-- Modelled from the spec: IEEE-754 division on the `F32` model.  A
finite value divided by (positive) zero yields `±inf`, zero divided by
zero yields NaN; no case signals an error. -/
def F32.div : F32 → F32 → F32
  | F32.finite x, F32.finite y =>
      if y = 0 then
        (if x = 0 then F32.nan else if 0 < x then F32.inf else F32.neginf)
      else F32.finite (x / y)
  | F32.finite _, F32.inf => F32.finite 0
  | F32.finite _, F32.neginf => F32.finite 0
  | F32.finite _, F32.nan => F32.nan
  | F32.inf, F32.finite y => if 0 ≤ y then F32.inf else F32.neginf
  | F32.inf, _ => F32.nan
  | F32.neginf, F32.finite y => if 0 ≤ y then F32.neginf else F32.inf
  | F32.neginf, _ => F32.nan
  | F32.nan, _ => F32.nan

/-- Forward pass of `scalar_div` on the `F32` model
(arith_scalar.rs line 80): `map(t.data(), |x| x / val)`. -/
def scalar_div_forward_f32 (val : F32) (t : List F32) : List F32 :=
  t.map (fun x => F32.div x val)

/-! ### Helper lemmas -/

/-- The overwrite closures of the scalar backward records ignore the
previous contents of the destination buffer: zipping depends only on the
length of the destination. -/
theorem zipWith_ignore_left (f : ℚ → ℚ) :
    ∀ a b c : List ℚ, a.length = b.length →
      List.zipWith (fun _ r => f r) a c = List.zipWith (fun _ r => f r) b c := by
  intro a
  induction a with
  | nil => intro b c h; cases b with
    | nil => rfl
    | cons y ys => simp at h
  | cons x xs ih =>
    intro b c h
    cases b with
    | nil => simp at h
    | cons y ys =>
      cases c with
      | nil => rfl
      | cons z zs =>
        simp only [List.zipWith]
        exact congrArg _ (ih ys zs (by simpa using h))

/-- Zipping a fully-overwriting closure over equal-length buffers is a
map over the source buffer. -/
theorem zipWith_overwrite (f : ℚ → ℚ) :
    ∀ a c : List ℚ, a.length = c.length →
      List.zipWith (fun _ r => f r) a c = c.map f := by
  intro a
  induction a with
  | nil => intro c h; cases c with
    | nil => rfl
    | cons z zs => simp at h
  | cons x xs ih =>
    intro c h
    cases c with
    | nil => simp at h
    | cons z zs =>
      simp only [List.zipWith, List.map]
      exact congrArg _ (ih zs (by simpa using h))

/-- Accumulating into a freshly zero-initialized gradient slot returns
the accumulated value itself. -/
theorem add_assign_replicate_zero :
    ∀ l : List ℚ, ∀ n, l.length = n →
      Device.add_assign (List.replicate n 0) l = l := by
  intro l
  induction l with
  | nil => intro n h; subst h; rfl
  | cons x xs ih =>
    intro n h
    subst h
    simp only [List.replicate, Device.add_assign, List.zipWith, zero_add]
    exact congrArg _ (ih xs.length rfl)

/-! ### Claim theorems: scalar arithmetic -/

/-- Claim C8: each scalar arithmetic operation applies the operation
elementwise to the input buffer and produces a result of the same shape;
adding `0.5` to `[1, 2, -3]` gives `[1.5, 2.5, -2.5]` and dividing
`[1, 2, -3]` by `2` gives `[0.5, 1, -1.5]`. -/
theorem scalar_forward_elementwise (c : ℚ) (t : List ℚ) :
    ((scalar_add_forward c t).length = t.length ∧
     (scalar_sub_forward c t).length = t.length ∧
     (scalar_mul_forward c t).length = t.length ∧
     (scalar_div_forward c t).length = t.length) ∧
    (∀ i : ℕ,
      (scalar_add_forward c t)[i]? = (t[i]?).map (fun x => x + c) ∧
      (scalar_sub_forward c t)[i]? = (t[i]?).map (fun x => x - c) ∧
      (scalar_mul_forward c t)[i]? = (t[i]?).map (fun x => x * c) ∧
      (scalar_div_forward c t)[i]? = (t[i]?).map (fun x => x / c)) ∧
    scalar_add_forward (1/2) [1, 2, -3] = [3/2, 5/2, -5/2] ∧
    scalar_div_forward 2 [1, 2, -3] = [1/2, 1, -3/2] := by
  refine ⟨⟨?_, ?_, ?_, ?_⟩, ?_, ?_, ?_⟩
  · simp [scalar_add_forward, Device.map]
  · simp [scalar_sub_forward, Device.map]
  · simp [scalar_mul_forward, Device.map]
  · simp [scalar_div_forward, Device.map]
  · intro i
    refine ⟨?_, ?_, ?_, ?_⟩ <;>
      simp [scalar_add_forward, scalar_sub_forward, scalar_mul_forward,
        scalar_div_forward, Device.map, List.getElem?_map]
  · norm_num [scalar_add_forward, Device.map]
  · norm_num [scalar_div_forward, Device.map]

/-- Claim C1 counterexample: with a gradient slot already holding `3`
and upstream gradient `2`, the `scalar_add` backward record leaves the
slot at `5 = 3 + 2`: the slot is added into, not overwritten with the
transported upstream gradient (which would leave `2`, or `4` were the
overwritten slot then accumulated again). -/
theorem scalar_add_slot_not_overwritten :
    scalar_add_backward [5] [3] [2] = [5] ∧
    ([5] : List ℚ) ≠ [2] ∧ ([5] : List ℚ) ≠ [4] := by
  refine ⟨?_, by decide, by decide⟩
  simp [scalar_add_backward, Device.add_assign, Device.zip_map_assign]
  norm_num

/-- Claim C1 (amended): for scalar add and sub, the backward record
overwrites the captured input data buffer (not the gradient slot) with
the transported upstream gradient, and then adds that buffer into the
gradient slot of the input: the slot is accumulated into, ending at its
previous contents plus the upstream gradient. -/
theorem scalar_addsub_backward_accumulates (tData slot upstream : List ℚ)
    (ht : tData.length = upstream.length) :
    Device.zip_map_assign (fun _ r => r) tData upstream = upstream ∧
    scalar_add_backward tData slot upstream =
      List.zipWith (fun l r => l + r) slot upstream ∧
    scalar_sub_backward tData slot upstream =
      List.zipWith (fun l r => l + r) slot upstream := by
  have hover : Device.zip_map_assign (fun _ r => r) tData upstream = upstream := by
    have := zipWith_overwrite (fun r => r) tData upstream ht
    simpa [Device.zip_map_assign, List.map_id] using this
  refine ⟨hover, ?_, ?_⟩
  · simp [scalar_add_backward, Device.add_assign, hover]
  · simp [scalar_sub_backward, Device.add_assign, hover]

/-- Claim C1 amended witness. -/
theorem scalar_addsub_backward_accumulates_witness :
    Device.zip_map_assign (fun _ r => r) [(7 : ℚ)] [2] = [2] ∧
    scalar_add_backward [7] [3] [2] = List.zipWith (fun l r => l + r) [3] [2] ∧
    scalar_sub_backward [7] [3] [2] = List.zipWith (fun l r => l + r) [3] [2] :=
  scalar_addsub_backward_accumulates [7] [3] [2] (by decide)

/-- Claim C4: seeding the result of `t + c` with a unit upstream
gradient, the backward record yields gradient `1` at every element of
`t` (identity transport); for `t * c` it yields gradient `c` at every
element. -/
theorem scalar_add_mul_backward_gradient (c : ℚ) (tData : List ℚ) (n : ℕ)
    (ht : tData.length = n) :
    scalar_add_backward tData (List.replicate n 0) (List.replicate n 1) =
      List.replicate n 1 ∧
    scalar_mul_backward c tData (List.replicate n 0) (List.replicate n 1) =
      List.replicate n c := by
  have hlen : tData.length = (List.replicate n (1 : ℚ)).length := by
    simpa using ht
  constructor
  · have hover := zipWith_overwrite (fun r => r) tData (List.replicate n 1) hlen
    simp only [List.map_id'] at hover
    rw [scalar_add_backward, Device.zip_map_assign, hover,
      add_assign_replicate_zero _ n (by simp)]
  · have hover := zipWith_overwrite (fun r => c * r) tData (List.replicate n 1) hlen
    rw [scalar_mul_backward, Device.zip_map_assign, hover, List.map_replicate,
      mul_one, add_assign_replicate_zero _ n (by simp)]

/-- Claim C4 witness. -/
theorem scalar_add_mul_backward_gradient_witness :
    scalar_add_backward [4, 9] (List.replicate 2 0) (List.replicate 2 1) =
      List.replicate 2 1 ∧
    scalar_mul_backward 3 [4, 9] (List.replicate 2 0) (List.replicate 2 1) =
      List.replicate 2 3 :=
  scalar_add_mul_backward_gradient 3 [4, 9] 2 (by decide)

/-- Claim C10: for each scalar arithmetic backward record, the gradient
written for the input depends only on the constant, the prior slot
contents and the upstream gradient, never on the element values of the
input buffer: two runs with different captured data of equal shape
produce identical results. -/
theorem scalar_backward_input_independent (c : ℚ)
    (t1 t2 slot upstream : List ℚ) (h : t1.length = t2.length) :
    scalar_add_backward t1 slot upstream = scalar_add_backward t2 slot upstream ∧
    scalar_sub_backward t1 slot upstream = scalar_sub_backward t2 slot upstream ∧
    scalar_mul_backward c t1 slot upstream = scalar_mul_backward c t2 slot upstream ∧
    scalar_div_backward c t1 slot upstream = scalar_div_backward c t2 slot upstream := by
  refine ⟨?_, ?_, ?_, ?_⟩
  · rw [scalar_add_backward, scalar_add_backward, Device.zip_map_assign,
      Device.zip_map_assign, zipWith_ignore_left (fun r => r) t1 t2 upstream h]
  · rw [scalar_sub_backward, scalar_sub_backward, Device.zip_map_assign,
      Device.zip_map_assign, zipWith_ignore_left (fun r => r) t1 t2 upstream h]
  · rw [scalar_mul_backward, scalar_mul_backward, Device.zip_map_assign,
      Device.zip_map_assign, zipWith_ignore_left (fun r => c * r) t1 t2 upstream h]
  · rw [scalar_div_backward, scalar_div_backward, Device.zip_map_assign,
      Device.zip_map_assign, zipWith_ignore_left (fun r => r / c) t1 t2 upstream h]

/-- Claim C10 witness. -/
theorem scalar_backward_input_independent_witness :
    scalar_add_backward [1, 2] [5, 5] [3, 4] = scalar_add_backward [8, 9] [5, 5] [3, 4] ∧
    scalar_sub_backward [1, 2] [5, 5] [3, 4] = scalar_sub_backward [8, 9] [5, 5] [3, 4] ∧
    scalar_mul_backward 7 [1, 2] [5, 5] [3, 4] = scalar_mul_backward 7 [8, 9] [5, 5] [3, 4] ∧
    scalar_div_backward 7 [1, 2] [5, 5] [3, 4] = scalar_div_backward 7 [8, 9] [5, 5] [3, 4] :=
  scalar_backward_input_independent 7 [1, 2] [8, 9] [5, 5] [3, 4] (by decide)

/-- Claim C9: scalar division by a zero constant never signals a failure:
the forward pass runs to completion on every input tensor (the result
has the full length of the input) and every produced value is
non-finite. -/
theorem scalar_div_by_zero_total (t : List F32) :
    (scalar_div_forward_f32 (F32.finite 0) t).length = t.length ∧
    ∀ y ∈ scalar_div_forward_f32 (F32.finite 0) t, y.isFinite = false := by
  constructor
  · simp [scalar_div_forward_f32]
  · intro y hy
    simp only [scalar_div_forward_f32, List.mem_map] at hy
    obtain ⟨x, _, rfl⟩ := hy
    cases x with
    | finite q =>
        by_cases hq : q = 0
        · simp [F32.div, hq, F32.isFinite]
        · by_cases hpos : 0 < q
          · simp [F32.div, hq, hpos, F32.isFinite]
          · simp [F32.div, hq, hpos, F32.isFinite]
    | inf => simp [F32.div, F32.isFinite]
    | neginf => simp [F32.div, F32.isFinite]
    | nan => simp [F32.div, F32.isFinite]

/-- Claim C9 witness. -/
theorem scalar_div_by_zero_total_witness :
    (scalar_div_forward_f32 (F32.finite 0)
        [F32.finite 1, F32.finite 0, F32.finite (-2)]).length =
      ([F32.finite 1, F32.finite 0, F32.finite (-2)] : List F32).length ∧
    ∀ y ∈ scalar_div_forward_f32 (F32.finite 0)
        [F32.finite 1, F32.finite 0, F32.finite (-2)], y.isFinite = false :=
  scalar_div_by_zero_total [F32.finite 1, F32.finite 0, F32.finite (-2)]

/-! ### Claim theorems: mean_axis -/

/-- Indexing into the broadcast of an upstream gradient along the
removed axis. -/
theorem sum_axis_backward_getElem? :
    ∀ (t : List (List ℚ)) (u : List ℚ) (i : ℕ) (grp : List ℚ) (x : ℚ),
      t[i]? = some grp → u[i]? = some x →
      (sum_axis_backward t u)[i]? = some (grp.map (fun _ => x)) := by
  intro t
  induction t with
  | nil => intro u i grp x h; simp at h
  | cons hd tl ih =>
    intro u i grp x ht hu
    cases u with
    | nil => simp at hu
    | cons v vs =>
      cases i with
      | zero =>
          simp only [List.getElem?_cons_zero, Option.some.injEq] at ht hu
          subst ht; subst hu
          simp [sum_axis_backward]
      | succ j =>
          simp only [List.getElem?_cons_succ] at ht hu
          simpa [sum_axis_backward] using ih vs j grp x ht hu

/-- Claim C5: the forward of `mean_axis` is `sum_axis` divided by the
axis size, keeps one output element per group of the removed axis, and
each output element is the arithmetic mean of its group; the mean of
`[[1, 2, 3], [4, 5, 6]]` over the last axis is `[2, 5]`. -/
theorem mean_axis_forward_spec (t : List (List ℚ)) (n : ℕ)
    (hn : ∀ grp ∈ t, grp.length = n) :
    mean_axis t n = div_scalar (sum_axis t) n ∧
    (mean_axis t n).length = t.length ∧
    (∀ (i : ℕ) (grp : List ℚ), t[i]? = some grp →
      (mean_axis t n)[i]? = some (grp.sum / grp.length)) ∧
    mean_axis [[1, 2, 3], [4, 5, 6]] 3 = [2, 5] := by
  refine ⟨rfl, ?_, ?_, ?_⟩
  · simp [mean_axis, div_scalar, sum_axis, Device.map]
  · intro i grp hgrp
    have hmem : grp ∈ t := List.mem_iff_getElem?.mpr ⟨i, hgrp⟩
    have hlen : grp.length = n := hn grp hmem
    simp [mean_axis, div_scalar, sum_axis, Device.map, List.getElem?_map,
      hgrp, hlen]
  · norm_num [mean_axis, div_scalar, sum_axis, Device.map]

/-- Claim C5 witness. -/
theorem mean_axis_forward_spec_witness :
    mean_axis [[1, 2, 3], [4, 5, 6]] 3 =
      div_scalar (sum_axis [[1, 2, 3], [4, 5, 6]]) 3 ∧
    (mean_axis [[1, 2, 3], [4, 5, 6]] 3)[0]? = some ((6 : ℚ) / 3) := by
  have h := mean_axis_forward_spec [[1, 2, 3], [4, 5, 6]] 3 (by decide)
  refine ⟨h.1, ?_⟩
  have h0 := h.2.2.1 0 [1, 2, 3] (by decide)
  norm_num at h0 ⊢
  exact h0

/-- Claim C3: for every tensor grouped along a valid axis of size `N`
and a uniform upstream gradient `g` on the output, the backward of
`mean_axis` gives every contributing input element the gradient
`g / N` — the upstream gradient is broadcast back along the removed
axis and scaled by `1 / N`. -/
theorem mean_axis_backward_uniform (t : List (List ℚ)) (n : ℕ) (g : ℚ)
    (hn : ∀ grp ∈ t, grp.length = n) :
    ∀ (i : ℕ) (grp : List ℚ), t[i]? = some grp →
      (mean_axis_backward t n (List.replicate t.length g))[i]? =
        some (List.replicate n (g / n)) := by
  intro i grp hgrp
  have hi : i < t.length := by
    rcases List.getElem?_eq_some.mp hgrp with ⟨h, _⟩
    exact h
  have hu : (scalar_div_transport n (List.replicate t.length g))[i]? =
      some (g / n) := by
    simp [scalar_div_transport, List.getElem?_map, List.getElem?_replicate, hi]
  have hb := sum_axis_backward_getElem? t
    (scalar_div_transport (n : ℚ) (List.replicate t.length g)) i grp (g / n)
    hgrp hu
  have hlen : grp.length = n := hn grp (List.mem_iff_getElem?.mpr ⟨i, hgrp⟩)
  rw [mean_axis_backward, hb]
  congr 1
  rw [List.map_const']
  exact congrArg (fun k => List.replicate k (g / (n : ℚ))) hlen

/-- Claim C3 witness. -/
theorem mean_axis_backward_uniform_witness :
    (mean_axis_backward [[1, 2], [3, 4]] 2
        (List.replicate 2 (5 : ℚ)))[1]? = some (List.replicate 2 (5 / 2)) := by
  have h := mean_axis_backward_uniform [[1, 2], [3, 4]] 2 5 (by decide)
    1 [3, 4] (by rfl)
  norm_num at h ⊢
  exact h

/-! ### Claim theorems: select -/

/-- Scattering into a buffer preserves its length. -/
theorem addAt_length : ∀ (buf : List ℚ) (i : ℕ) (v : ℚ),
    (addAt buf i v).length = buf.length := by
  intro buf
  induction buf with
  | nil => intro i v; rfl
  | cons x xs ih =>
    intro i v
    cases i with
    | zero => rfl
    | succ n => simp [addAt, ih]

/-- Reading a buffer after a single scatter step. -/
theorem getD_addAt :
    ∀ (buf : List ℚ) (i p : ℕ) (v : ℚ), i < buf.length →
      (addAt buf i v).getD p 0 = buf.getD p 0 + (if i = p then v else 0) := by
  intro buf
  induction buf with
  | nil => intro i p v hi; simp at hi
  | cons x xs ih =>
    intro i p v hi
    cases i with
    | zero =>
      cases p with
      | zero => simp [addAt]
      | succ q => simp [addAt]
    | succ n =>
      cases p with
      | zero => simp [addAt]
      | succ q =>
        have hn : n < xs.length := by simpa using hi
        simp only [addAt, List.getD_cons_succ]
        rw [ih n q v hn]
        congr 1
        simp [Nat.succ_inj]

/-- Scatter-adding preserves the buffer length. -/
theorem select_add_length :
    ∀ (is : List ℕ) (gs buf : List ℚ),
      (select_add buf is gs).length = buf.length := by
  intro is
  induction is with
  | nil => intro gs buf; simp [select_add]
  | cons i is ih =>
    intro gs buf
    cases gs with
    | nil => simp [select_add]
    | cons g gs => simp [select_add, ih, addAt_length]

/-- Characterization of the scatter-add: each buffer position ends at
its initial value plus the sum of the upstream gradients of every
output coordinate whose index points at it. -/
theorem select_add_getD :
    ∀ (is : List ℕ) (gs buf : List ℚ), is.length = gs.length →
      (∀ i ∈ is, i < buf.length) → ∀ p : ℕ,
      (select_add buf is gs).getD p 0 =
        buf.getD p 0 + ∑ j ∈ Finset.range is.length,
          (if is.getD j 0 = p then gs.getD j 0 else 0) := by
  intro is
  induction is with
  | nil => intro gs buf _ _ p; simp [select_add]
  | cons i is ih =>
    intro gs buf hlen hb p
    cases gs with
    | nil => simp at hlen
    | cons g gs =>
      have hi : i < buf.length := hb i (List.mem_cons_self i is)
      have hlen' : is.length = gs.length := by simpa using hlen
      have hb' : ∀ k ∈ is, k < (addAt buf i g).length := by
        intro k hk
        rw [addAt_length]
        exact hb k (List.mem_cons_of_mem i hk)
      have hrec := ih gs (addAt buf i g) hlen' hb' p
      rw [show select_add buf (i :: is) (g :: gs) =
            select_add (addAt buf i g) is gs from rfl,
        hrec, getD_addAt buf i p g hi, List.length_cons,
        Finset.sum_range_succ']
      simp only [List.getD_cons_succ, List.getD_cons_zero]
      ring

/-- A zero-filled buffer reads zero everywhere. -/
theorem getD_replicate_zero (m p : ℕ) :
    (List.replicate m (0 : ℚ)).getD p 0 = 0 := by
  simp only [List.getD_eq_getElem?_getD, List.getElem?_replicate]
  split <;> rfl

/-- Claim C2: the backward of `select` is a scatter-add — starting from
a zero buffer shaped like the input, the upstream gradient of every
output coordinate is added into the input position it was copied from,
repeated positions receive the sum of their contributions and positions
never selected receive zero gradient; for an input of length 5 with
indices `[0,1,2,3,4,2,4,4]` and a uniform mean gradient over the 8
outputs the input gradient is `[1/8, 1/8, 2/8, 1/8, 3/8]`. -/
theorem select_backward_scatter_add (m : ℕ) (indices : List ℕ)
    (upstream : List ℚ) (hlen : indices.length = upstream.length)
    (hb : ∀ i ∈ indices, i < m) :
    (∀ p : ℕ,
      (select_backward m indices upstream (List.replicate m 0)).getD p 0 =
        ∑ j ∈ Finset.range indices.length,
          (if indices.getD j 0 = p then upstream.getD j 0 else 0)) ∧
    (∀ p : ℕ, p ∉ indices →
      (select_backward m indices upstream (List.replicate m 0)).getD p 0 = 0) ∧
    select_backward 5 [0, 1, 2, 3, 4, 2, 4, 4] (List.replicate 8 (1/8))
      (List.replicate 5 0) = [1/8, 1/8, 2/8, 1/8, 3/8] := by
  have hb' : ∀ i ∈ indices, i < (List.replicate m (0 : ℚ)).length := by
    simpa using hb
  have hplain : select_backward m indices upstream (List.replicate m 0) =
      select_add (List.replicate m 0) indices upstream := by
    rw [select_backward]
    exact add_assign_replicate_zero _ m
      (by rw [select_add_length, List.length_replicate])
  have hformula : ∀ p : ℕ,
      (select_backward m indices upstream (List.replicate m 0)).getD p 0 =
        ∑ j ∈ Finset.range indices.length,
          (if indices.getD j 0 = p then upstream.getD j 0 else 0) := by
    intro p
    rw [hplain, select_add_getD indices upstream _ hlen hb' p,
      getD_replicate_zero, zero_add]
  refine ⟨hformula, ?_, ?_⟩
  · intro p hp
    rw [hformula p]
    refine Finset.sum_eq_zero ?_
    intro j hj
    have hjlt : j < indices.length := Finset.mem_range.mp hj
    have hmem : indices.getD j 0 ∈ indices := by
      rw [List.getD_eq_getElem indices 0 hjlt]
      exact List.getElem_mem hjlt
    have hne : indices.getD j 0 ≠ p := fun hEq => hp (hEq ▸ hmem)
    exact if_neg hne
  · norm_num [select_backward, Device.add_assign, select_add, addAt,
      List.replicate_succ]

/-- Claim C2 witness. -/
theorem select_backward_scatter_add_witness :
    (select_backward 5 [0, 1, 2, 3, 4, 2, 4, 4] (List.replicate 8 (1/8))
        (List.replicate 5 0)).getD 4 0 =
      ∑ j ∈ Finset.range ([0, 1, 2, 3, 4, 2, 4, 4] : List ℕ).length,
        (if ([0, 1, 2, 3, 4, 2, 4, 4] : List ℕ).getD j 0 = 4 then
          (List.replicate 8 ((1 : ℚ)/8)).getD j 0 else 0) ∧
    select_backward 5 [0, 1, 2, 3, 4, 2, 4, 4] (List.replicate 8 (1/8))
      (List.replicate 5 0) = [1/8, 1/8, 2/8, 1/8, 3/8] := by
  have h := select_backward_scatter_add 5 [0, 1, 2, 3, 4, 2, 4, 4]
    (List.replicate 8 (1/8)) (by decide) (by decide)
  exact ⟨h.1 4, h.2.2⟩

/-- Claim C6: the forward of `select` copies, for every output
coordinate, the input element addressed by the corresponding index
value; and the other elements of the input do not influence the output:
two inputs of the same shape agreeing on every selected position select
to the same output. -/
theorem select_forward_gather (data data2 : List ℚ) (indices : List ℕ)
    (hb : ∀ i ∈ indices, i < data.length) :
    (select_axis data indices).length = indices.length ∧
    (∀ j : ℕ, j < indices.length →
      (select_axis data indices).getD j 0 =
        data.getD (indices.getD j 0) 0) ∧
    (data2.length = data.length →
      (∀ i ∈ indices, data2.getD i 0 = data.getD i 0) →
      select_axis data2 indices = select_axis data indices) := by
  refine ⟨?_, ?_, ?_⟩
  · simp [select_axis]
  · intro j hj
    have hj' : j < (select_axis data indices).length := by
      simpa [select_axis] using hj
    rw [List.getD_eq_getElem _ 0 hj', List.getD_eq_getElem indices 0 hj]
    simp [select_axis]
  · intro _ hagree
    refine List.map_congr_left ?_
    intro i hi
    exact hagree i hi

/-- Claim C6 witness. -/
theorem select_forward_gather_witness :
    (select_axis [10, 20, 30] [2, 0, 2]).length = 3 ∧
    (select_axis [10, 20, 30] [2, 0, 2]).getD 0 0 =
      ([10, 20, 30] : List ℚ).getD 2 0 ∧
    select_axis [10, 99, 30] [2, 0, 2] = select_axis [10, 20, 30] [2, 0, 2] := by
  have h := select_forward_gather [10, 20, 30] [10, 99, 30] [2, 0, 2] (by decide)
  refine ⟨h.1, ?_, h.2.2 (by decide) (by decide)⟩
  have h0 := h.2.1 0 (by decide)
  simpa using h0

/-- Claim C7: selecting with indices forming a permutation of the axis
and then selecting with the inverse permutation reconstructs the
original forward values exactly, and the backward through a permutation
select reduces to the identity-gradient case: each input position
receives exactly its own upstream gradient, unchanged. -/
theorem select_permutation_roundtrip (data : List ℚ) (m : ℕ)
    (perm inv : List ℕ) (u : List ℚ)
    (hd : data.length = m) (hpl : perm.length = m) (hil : inv.length = m)
    (hu : u.length = m)
    (hpi : ∀ k, k < m → inv.getD k 0 < m ∧ perm.getD (inv.getD k 0) 0 = k)
    (hip : ∀ j, j < m → perm.getD j 0 < m ∧ inv.getD (perm.getD j 0) 0 = j) :
    select_axis (select_axis data perm) inv = data ∧
    (∀ j, j < m →
      (select_backward m perm u (List.replicate m 0)).getD
          (perm.getD j 0) 0 = u.getD j 0) := by
  have hbp : ∀ i ∈ perm, i < m := by
    intro i hi
    rcases List.mem_iff_getElem.mp hi with ⟨j, hj, hji⟩
    have := (hip j (hpl ▸ hj)).1
    rwa [List.getD_eq_getElem perm 0 hj, hji] at this
  constructor
  · have hlen1 : (select_axis data perm).length = m := by
      simp [select_axis, hpl]
    refine List.ext_getElem (by simp [select_axis, hil, hd]) ?_
    intro k hk1 hk2
    have hkm : k < m := by
      simpa [select_axis, hil] using hk1
    have hk3 : k < inv.length := hil ▸ hkm
    have e1 : (select_axis (select_axis data perm) inv)[k] =
        (select_axis data perm).getD (inv.getD k 0) 0 := by
      rw [← List.getD_eq_getElem _ 0 hk1]
      have hk4 : k < (select_axis (select_axis data perm) inv).length := hk1
      rw [List.getD_eq_getElem _ 0 hk4, List.getD_eq_getElem inv 0 hk3]
      simp [select_axis]
    have hinvk : inv.getD k 0 < m := (hpi k hkm).1
    have e2 : (select_axis data perm).getD (inv.getD k 0) 0 =
        data.getD (perm.getD (inv.getD k 0) 0) 0 := by
      have hik : inv.getD k 0 < (select_axis data perm).length := by
        rwa [hlen1]
      have hik2 : inv.getD k 0 < perm.length := hpl ▸ hinvk
      rw [List.getD_eq_getElem _ 0 hik, List.getD_eq_getElem perm 0 hik2]
      simp [select_axis]
    rw [e1, e2, (hpi k hkm).2, List.getD_eq_getElem data 0 (hd ▸ hkm)]
  · intro j hjm
    have hlen : perm.length = u.length := by rw [hpl, hu]
    have hformula := select_add_getD perm u (List.replicate m 0) hlen
      (by simpa using hbp) (perm.getD j 0)
    have hplain : select_backward m perm u (List.replicate m 0) =
        select_add (List.replicate m 0) perm u := by
      rw [select_backward]
      exact add_assign_replicate_zero _ m
        (by rw [select_add_length, List.length_replicate])
    rw [hplain, hformula, getD_replicate_zero, zero_add, hpl]
    refine Finset.sum_eq_single_of_mem j (Finset.mem_range.mpr hjm) ?_ |>.trans
      (if_pos rfl)
    intro b hb hbj
    have hbm : b < m := Finset.mem_range.mp hb
    refine if_neg ?_
    intro hEq
    exact hbj (by rw [← (hip b hbm).2, hEq, (hip j hjm).2])

/-- Claim C7 witness: the permutation `[2, 0, 1]` of a length-3 axis
with inverse `[1, 2, 0]`. -/
theorem select_permutation_roundtrip_witness :
    select_axis (select_axis [10, 20, 30] [2, 0, 1]) [1, 2, 0] =
      [10, 20, 30] ∧
    (select_backward 3 [2, 0, 1] [7, 8, 9] (List.replicate 3 0)).getD 2 0 = 7 := by
  have h := select_permutation_roundtrip [10, 20, 30] 3 [2, 0, 1] [1, 2, 0]
    [7, 8, 9] (by decide) (by decide) (by decide) (by decide)
    (by decide) (by decide)
  refine ⟨h.1, ?_⟩
  have h0 := h.2 0 (by decide)
  simpa using h0

end Dfdx
